import Mathlib

/-!
Verification of the two-tier sealed-bid auction reference implementation
(`propose_auction.py` and `ordinal_auction.py`).

The Python code is shallowly embedded: pure functions become Lean functions
on `Nat`, methods that mutate `self` become functions returning the result
together with the updated record, exceptions become an explicit error type,
and the ambient randomness (`sympy.randprime`, `random.randint`) becomes an
explicit parameter holding the sequence of drawn values.
-/

namespace Auction

/-- Python `pow(b, e, n)`: modular exponentiation. -/
def powMod (b e n : Nat) : Nat := b ^ e % n

/-- `encrypt(m, pubkey)` from propose_auction.py: `pow(m, e, n)` with `(e, n) = pubkey`. -/
def encrypt (m : Nat) (pubkey : Nat × Nat) : Nat := powMod m pubkey.1 pubkey.2

/-- `decrypt(c, privkey)` from propose_auction.py: `pow(c, d, n)` with `(d, n) = privkey`. -/
def decrypt (c : Nat) (privkey : Nat × Nat) : Nat := powMod c privkey.1 privkey.2

/-- `vc_keygen(k, q)` from propose_auction.py: always returns the generator 2. -/
def vc_keygen (_k _q : Nat) : Nat := 2

/-- The `q = randprime(...)` retry loop of `generate_keys`: starting from `q = p`,
it keeps drawing while `q == p`.  `draws` is the (finite prefix of the) stream of
values returned by `randprime`; `none` means the loop had not yet terminated when
this prefix was exhausted, i.e. the search did not finish within `draws.length`
retries. -/
def qSearch (p : Nat) : List Nat → Option Nat
  | [] => none
  | d :: rest => if d = p then qSearch p rest else some d

/-- The `while phi % e == 0: e = randprime(3, 1000)` retry loop of `generate_keys`,
started at the current candidate `e` (initially 65537).  `draws` is the stream of
values returned by `randprime`; `none` means the loop had not yet terminated after
consuming all of `draws`. -/
def eSearch (phi e : Nat) : List Nat → Option Nat
  | [] => if phi % e = 0 then none else some e
  | d :: rest => if phi % e = 0 then eSearch phi d rest else some e

/-- Extended Euclid, tracking the Bezout coefficient of `a`: from
`(r0, s0, r1, s1)` with `r0 ≡ s0·a` and `r1 ≡ s1·a (mod n)`, it returns
`(gcd, s)` with `gcd ≡ s·a (mod n)`.  `fuel` dominates the iteration count
(the second remainder strictly decreases, so any `fuel ≥ r1` is enough). -/
def egcdAux : Nat → Nat → Int → Nat → Int → Nat × Int
  | 0, r0, s0, _, _ => (r0, s0)
  | fuel + 1, r0, s0, r1, s1 =>
    if r1 = 0 then (r0, s0)
    else egcdAux fuel r1 s1 (r0 % r1) (s0 - (r0 / r1 : Int) * s1)

/-- Python `pow(e, -1, phi)`: the modular inverse of `e` modulo `phi`, the
unique `x` in `[0, phi)` with `e * x ≡ 1 (mod phi)`, computed (as in CPython)
by extended Euclid; `0` stands for the `ValueError` on non-coprime arguments,
which the caller `generate_keys` never triggers. -/
def invMod (a n : Nat) : Nat :=
  let gs := egcdAux n a 1 n 0
  if gs.1 = 1 then (gs.2 % (n : Int)).toNat else 0

/-- `generate_keys(bit_length=16)` from propose_auction.py.  The random draws of
`randprime` are passed explicitly: `p` is the first prime drawn, `qDraws` the
stream feeding the `q != p` retry loop, `eDraws` the stream feeding the
coprimality retry loop.  `none` means one of the two unbounded retry loops had
not terminated after consuming its modelled stream; the function has no error
result of its own (the Python code raises nothing here). -/
def generate_keys (p : Nat) (qDraws eDraws : List Nat) :
    Option ((Nat × Nat) × (Nat × Nat)) :=
  match qSearch p qDraws with
  | none => none
  | some q =>
    let n := p * q
    let phi := (p - 1) * (q - 1)
    match eSearch phi 65537 eDraws with
    | none => none
    | some e =>
      let d := invMod e phi
      some ((e, n), (d, n))

/-- The exceptions raised by propose_auction.py, one constructor per distinct
`raise` site (`IndexError` is the out-of-range list subscript in
`compute_vector_commitment`). -/
inductive Err where
  | bidOutOfRange
  | commitmentNotCreated
  | missingInputs
  | indexError
deriving DecidableEq

/-- `User` from propose_auction.py. -/
structure User where
  user_id : String
  bid_value : Nat
  commitment : Option Nat := none
  encrypted_commitment : Option Nat := none
deriving DecidableEq

/-- `max_safe_bid = 1000` from `User.create_commitment`. -/
def max_safe_bid : Nat := 1000

/-- The default modulus `2**31 - 1` used by `User.create_commitment` when
`modulus is None`. -/
def default_modulus : Nat := 2 ^ 31 - 1

/-- `User.create_commitment(g, modulus=None)`: raises when the bid exceeds
`max_safe_bid`, otherwise stores and returns `pow(g, bid_value, modulus)`.
The second component is the post-state of the user object. -/
def create_commitment (g : Nat) (modulusOpt : Option Nat) (u : User) :
    Except Err Nat × User :=
  let modulus := modulusOpt.getD default_modulus
  if u.bid_value > max_safe_bid then
    (.error .bidOutOfRange, u)
  else
    let c := powMod g u.bid_value modulus
    (.ok c, { u with commitment := some c })

/-- `User.encrypt_commitment(pubkey)`: raises when no commitment is stored,
otherwise stores and returns the encryption of the commitment. -/
def encrypt_commitment (pubkey : Nat × Nat) (u : User) : Except Err Nat × User :=
  match u.commitment with
  | none => (.error .commitmentNotCreated, u)
  | some c =>
    let ec := encrypt c pubkey
    (.ok ec, { u with encrypted_commitment := some ec })

/-- Python `sorted(xs, key=key, reverse=True)`: a stable sort, descending by
`key`.  CPython documents `sorted` as stable and `reverse=True` as preserving
the original order of elements that compare equal, so the semantics is exactly
"descending by key, ties in original order"; it is realised here by stable
insertion: `insertDesc` places `x` before the first element whose key is not
larger than `key x`. -/
def insertDesc (key : α → Nat) (x : α) : List α → List α
  | [] => [x]
  | y :: ys => if key x ≥ key y then x :: y :: ys else y :: insertDesc key x ys

/-- See `insertDesc`: the stable descending sort performed by every
`sorted(..., key=lambda x: ..., reverse=True)` call in the repository. -/
def sortDesc (key : α → Nat) : List α → List α
  | [] => []
  | x :: xs => insertDesc key x (sortDesc key xs)

/-- `CBCVerifier` from propose_auction.py.  The key pair drawn by
`generate_keys()` in the constructor is carried explicitly. -/
structure CBCVerifier where
  cbc_id : String
  pubkey : Nat × Nat
  privkey : Nat × Nat
  users : List User := []
  decrypted_commitments : List (User × Nat) := []
  top_M_winners : List (User × Nat) := []

/-- `CBCVerifier.register_user(user)`. -/
def register_user (u : User) (s : CBCVerifier) : CBCVerifier :=
  { s with users := s.users ++ [u] }

/-- The loop body of `CBCVerifier.decrypt_commitments`: users without an
encrypted commitment are skipped. -/
def decryptLoop (priv : Nat × Nat) : List User → List (User × Nat)
  | [] => []
  | u :: rest =>
    match u.encrypted_commitment with
    | none => decryptLoop priv rest
    | some ec => (u, decrypt ec priv) :: decryptLoop priv rest

/-- `CBCVerifier.decrypt_commitments()`. -/
def decrypt_commitments (s : CBCVerifier) : List (User × Nat) × CBCVerifier :=
  let dc := decryptLoop s.privkey s.users
  (dc, { s with decrypted_commitments := dc })

/-- `CBCVerifier.select_top_M(M)`: stable sort descending by decrypted value,
truncate to `M`. -/
def select_top_M (M : Nat) (s : CBCVerifier) : List (User × Nat) × CBCVerifier :=
  let sorted_commitments := sortDesc (fun x => x.2) s.decrypted_commitments
  let w := sorted_commitments.take M
  (w, { s with top_M_winners := w })

/-- The loop of `CBCVerifier.encrypt_winners_for_pbc`, building the result list
in order. -/
def encryptWinnersLoop (pub : Nat × Nat) : List (User × Nat) → List (User × Nat)
  | [] => []
  | (u, c) :: rest => (u, encrypt c pub) :: encryptWinnersLoop pub rest

/-- `CBCVerifier.encrypt_winners_for_pbc(pbc_pubkey)`: re-encrypts each stored
winner value under the parent key; assigns no field of `self`. -/
def encrypt_winners_for_pbc (pub : Nat × Nat) (s : CBCVerifier) :
    List (User × Nat) × CBCVerifier :=
  (encryptWinnersLoop pub s.top_M_winners, s)

/-- `PBCVerifier` from propose_auction.py, key pair explicit as for the CBC. -/
structure PBCVerifier where
  pubkey : Nat × Nat
  privkey : Nat × Nat
  all_encrypted_winners : List (User × Nat) := []
  all_decrypted_commitments : List (User × Nat) := []
  final_winners : List (User × Nat) := []
  random_values : List Nat := []
  vector_commitment : Option Nat := none

/-- `PBCVerifier.collect_encrypted_winners(cbc_encrypted_winners)`: list extend. -/
def collect_encrypted_winners (contrib : List (User × Nat)) (s : PBCVerifier) :
    PBCVerifier :=
  { s with all_encrypted_winners := s.all_encrypted_winners ++ contrib }

/-- `PBCVerifier.decrypt_all_commitments()`. -/
def decrypt_all_commitments (s : PBCVerifier) : List (User × Nat) × PBCVerifier :=
  let dc := s.all_encrypted_winners.map (fun uc => (uc.1, decrypt uc.2 s.privkey))
  (dc, { s with all_decrypted_commitments := dc })

/-- `PBCVerifier.select_final_winners(M)`: same stable sort-and-truncate as the
CBC, over the pooled decrypted commitments. -/
def select_final_winners (M : Nat) (s : PBCVerifier) :
    List (User × Nat) × PBCVerifier :=
  let sorted_commitments := sortDesc (fun x => x.2) s.all_decrypted_commitments
  let w := sorted_commitments.take M
  (w, { s with final_winners := w })

/-- `PBCVerifier.generate_random_values(M)`: stores the `M` values drawn by
`random.randint(1, 100)`; the drawn list is the explicit parameter. -/
def generate_random_values (vals : List Nat) (s : PBCVerifier) :
    List Nat × PBCVerifier :=
  (vals, { s with random_values := vals })

/-- The `for i, (user, commitment) in enumerate(self.final_winners)` loop of
`compute_vector_commitment`: `coeffs[i]` is read with a Python subscript, so a
missing index raises `IndexError`; each iteration assigns
`self.vector_commitment = (acc * commitment ** r_i) % p`.  Returns the result
(or error) together with the last value assigned to `vector_commitment`
(initially one, assigned before the loop). -/
def cvcLoop (p : Nat) (coeffs : List Nat) :
    List (User × Nat) → Nat → Nat → Except Err Nat × Nat
  | [], _, acc => (.ok acc, acc)
  | (_, c) :: ws, i, acc =>
    match coeffs.get? i with
    | none => (.error .indexError, acc)
    | some r => cvcLoop p coeffs ws (i + 1) ((acc * c ^ r) % p)

/-- `PBCVerifier.compute_vector_commitment(p)`: guard raising `MissingInputs`
when either list is empty, then the running product loop.  The second component
is the post-state: untouched on the guard, otherwise `vector_commitment` holds
the last assigned (possibly partial) product. -/
def compute_vector_commitment (p : Nat) (s : PBCVerifier) :
    Except Err Nat × PBCVerifier :=
  if s.final_winners.isEmpty || s.random_values.isEmpty then
    (.error .missingInputs, s)
  else
    let rv := cvcLoop p s.random_values s.final_winners 0 1
    (rv.1, { s with vector_commitment := some rv.2 })

/-- The fixed sample `test_bids` of `verify_commitment_ordering`. -/
def test_bids : List Nat := [50, 100, 150, 200, 250, 300]

/-- The `all(commitments[i][1] < commitments[i+1][1] ...)` check of
`verify_commitment_ordering`. -/
def isAscChain : List Nat → Bool
  | [] => true
  | [_] => true
  | a :: b :: rest => a < b && isAscChain (b :: rest)

/-- `verify_commitment_ordering(g, modulus, max_bid=1000)` from
propose_auction.py: commits the sample bids not exceeding `max_bid` and reports
whether the commitments are strictly ascending. -/
def verify_commitment_ordering (g modulus max_bid : Nat) : Bool :=
  isAscChain ((test_bids.filter (· ≤ max_bid)).map (fun b => powMod g b modulus))

/-! ## The plaintext baseline, ordinal_auction.py -/

/-- `Bidder` from ordinal_auction.py. -/
structure Bidder where
  id : String
  bid_value : Nat
deriving DecidableEq

/-- `ChildBlockchain` from ordinal_auction.py. -/
structure ChildBlockchain where
  id : String
  bidders : List Bidder
  M : Nat
  top_bidders : List Bidder := []

/-- `ChildBlockchain.select_top_M()`: stable sort descending by bid value,
truncate to `M`. -/
def ChildBlockchain.select_top_M (c : ChildBlockchain) :
    List Bidder × ChildBlockchain :=
  let sorted_bidders := sortDesc (fun b => b.bid_value) c.bidders
  let w := sorted_bidders.take c.M
  (w, { c with top_bidders := w })

/-- `ParentBlockchain` from ordinal_auction.py. -/
structure ParentBlockchain where
  child_chains : List ChildBlockchain
  M : Nat
  all_winners : List Bidder := []

/-- `ParentBlockchain.collect_winners()`: runs the `select_top_M` of each child and
extends the pool in child order. -/
def collect_winners (s : ParentBlockchain) : ParentBlockchain :=
  { s with
    all_winners :=
      s.all_winners ++ (s.child_chains.map (fun c => (c.select_top_M).1)).flatten }

/-- `ParentBlockchain.determine_global_winners()`. -/
def determine_global_winners (s : ParentBlockchain) : List Bidder :=
  (sortDesc (fun b => b.bid_value) s.all_winners).take s.M

/-! ## The two end-to-end pipelines compared by the refinement claim.

Both consume the same population: `groups` is the list of CBC groups, each a
list of `(bidder id, bid value)` pairs, and `M` the per-stage winner count. -/

/-- The OrdinalAuction baseline of `run_simple_auction`: build one
`ChildBlockchain` per group, `collect_winners`, `determine_global_winners`;
returns the winning identities in rank order. -/
def run_ordinal (groups : List (List (String × Nat))) (M : Nat) : List String :=
  let chains := groups.map (fun g =>
    { id := "", bidders := g.map (fun ib => { id := ib.1, bid_value := ib.2 }),
      M := M : ChildBlockchain })
  let parent : ParentBlockchain := { child_chains := chains, M := M }
  (determine_global_winners (collect_winners parent)).map (fun b => b.id)

/-- The bidding phase for one user of `run_auction`: create the commitment,
then encrypt it under the CBC key, propagating either exception. -/
def processUser (g : Nat) (modOpt : Option Nat) (cbcPub : Nat × Nat) (u : User) :
    Except Err User :=
  match create_commitment g modOpt u with
  | (.error err, _) => .error err
  | (.ok _, u1) =>
    match encrypt_commitment cbcPub u1 with
    | (.error err, _) => .error err
    | (.ok _, u2) => .ok u2

/-- One CBC round of `run_auction`: register the users of the group, run the bidding
phase, decrypt, select the local top `M`, re-encrypt for the PBC. -/
def processCBC (M g : Nat) (modOpt : Option Nat) (pbcPub : Nat × Nat)
    (key : (Nat × Nat) × (Nat × Nat)) (group : List (String × Nat)) :
    Except Err (List (User × Nat)) := do
  let users ← group.mapM (fun ib =>
    processUser g modOpt key.1 { user_id := ib.1, bid_value := ib.2 })
  let s : CBCVerifier :=
    { cbc_id := "", pubkey := key.1, privkey := key.2, users := users }
  let s := (decrypt_commitments s).2
  let s := (select_top_M M s).2
  return (encrypt_winners_for_pbc pbcPub s).1

/-- The committed/encrypted protocol of `run_auction` (propose_auction.py),
with the per-verifier key pairs passed explicitly (one per CBC group, plus the
PBC pair): CBC rounds feed `collect_encrypted_winners`, then the PBC decrypts
the pool and selects the final winners; returns the winning identities in rank
order. -/
def run_committed (M g : Nat) (modOpt : Option Nat)
    (pbcKey : (Nat × Nat) × (Nat × Nat)) (cbcKeys : List ((Nat × Nat) × (Nat × Nat)))
    (groups : List (List (String × Nat))) : Except Err (List String) := do
  let contribs ← (cbcKeys.zip groups).mapM (fun kg =>
    processCBC M g modOpt pbcKey.1 kg.1 kg.2)
  let pbc : PBCVerifier := { pubkey := pbcKey.1, privkey := pbcKey.2 }
  let pbc := contribs.foldl (fun s c => collect_encrypted_winners c s) pbc
  let pbc := (decrypt_all_commitments pbc).2
  return ((select_final_winners M pbc).1).map (fun wc => wc.1.user_id)

/-! ## Demonstration states used by the concrete instantiations -/

/-- A key pair as `generate_keys` produces from the prime draws 131, 137. -/
def cbcDemoKey : (Nat × Nat) × (Nat × Nat) := ((65537, 17947), (12113, 17947))

/-- A key pair as `generate_keys` produces from the prime draws 139, 149. -/
def pbcDemoKey : (Nat × Nat) × (Nat × Nat) := ((65537, 20711), (15233, 20711))

/-- A single-CBC population: bidder A bids 50, bidder B bids 100. -/
def demoGroups : List (List (String × Nat)) := [[("A", 50), ("B", 100)]]

/-- The statement that `generate_keys`, fed the prime 131 and a `q`-stream that
keeps returning 131, never finishes, however many retries are modelled. -/
def generate_keys_diverges : Prop :=
  ∀ k : Nat, generate_keys 131 (List.replicate k 131) [] = none

/-- A CBC verifier state holding one registered user with one decrypted
commitment. -/
def demoCBCState : CBCVerifier :=
  { cbc_id := "d", pubkey := (3, 10), privkey := (3, 10),
    users := [{ user_id := "u", bid_value := 5 }],
    decrypted_commitments := [({ user_id := "u", bid_value := 5 }, 7)] }

/-- A PBC verifier state with two final winners but a single blinding
coefficient. -/
def demoPBCShort : PBCVerifier :=
  { pubkey := (3, 10), privkey := (3, 10),
    final_winners := [({ user_id := "x", bid_value := 1 }, 3),
                      ({ user_id := "y", bid_value := 1 }, 4)],
    random_values := [2] }

/-- A freshly constructed PBC verifier state: no winners, no coefficients. -/
def demoPBCEmpty : PBCVerifier := { pubkey := (3, 10), privkey := (3, 10) }

/-- A PBC verifier state with two final winners and two blinding coefficients. -/
def demoPBCFull : PBCVerifier :=
  { pubkey := (3, 10), privkey := (3, 10),
    final_winners := [({ user_id := "x", bid_value := 1 }, 3),
                      ({ user_id := "y", bid_value := 1 }, 4)],
    random_values := [2, 3] }

/-! ## Lemmas about the stable descending sort -/

theorem insertDesc_perm (key : α → Nat) (x : α) (l : List α) :
    (insertDesc key x l).Perm (x :: l) := by
  induction l with
  | nil => exact List.Perm.refl _
  | cons y ys ih =>
    simp only [insertDesc]
    split
    · exact List.Perm.refl _
    · exact (ih.cons y).trans (List.Perm.swap x y ys)

theorem sortDesc_perm (key : α → Nat) (l : List α) : (sortDesc key l).Perm l := by
  induction l with
  | nil => exact List.Perm.refl _
  | cons x xs ih => exact (insertDesc_perm key x _).trans (ih.cons x)

theorem insertDesc_sorted (key : α → Nat) (x : α) (l : List α)
    (h : List.Sorted (fun a b => key b ≤ key a) l) :
    List.Sorted (fun a b => key b ≤ key a) (insertDesc key x l) := by
  induction l with
  | nil => simp [insertDesc]
  | cons y ys ih =>
    rw [List.sorted_cons] at h
    obtain ⟨hy, hys⟩ := h
    simp only [insertDesc]
    split
    · rename_i hxy
      rw [List.sorted_cons]
      refine ⟨?_, by rw [List.sorted_cons]; exact ⟨hy, hys⟩⟩
      intro b hb
      rcases List.mem_cons.mp hb with hb | hb
      · subst hb; omega
      · have := hy b hb; omega
    · rename_i hxy
      rw [List.sorted_cons]
      refine ⟨?_, ih hys⟩
      intro b hb
      have hmem := (insertDesc_perm key x ys).mem_iff.mp hb
      rcases List.mem_cons.mp hmem with hb' | hb'
      · subst hb'; omega
      · exact hy b hb'

theorem sortDesc_sorted (key : α → Nat) (l : List α) :
    List.Sorted (fun a b => key b ≤ key a) (sortDesc key l) := by
  induction l with
  | nil => simp [sortDesc]
  | cons x xs ih => exact insertDesc_sorted key x _ ih

theorem filter_insertDesc (key : α → Nat) (k : Nat) (x : α) (l : List α) :
    (insertDesc key x l).filter (fun y => key y == k) =
      if key x == k then x :: l.filter (fun y => key y == k)
      else l.filter (fun y => key y == k) := by
  induction l with
  | nil => simp [insertDesc, List.filter_cons]
  | cons y ys ih =>
    simp only [insertDesc]
    split
    · simp only [List.filter_cons]
    · rename_i hxy
      have hne : key x < key y := by omega
      simp only [List.filter_cons, ih]
      by_cases hyk : key y = k
      · have hxk : ¬ key x = k := by omega
        simp [hyk, hxk]
      · by_cases hxk : key x = k
        · simp [hyk, hxk]
        · simp [hyk, hxk]

theorem sortDesc_stable (key : α → Nat) (k : Nat) (l : List α) :
    (sortDesc key l).filter (fun y => key y == k) =
      l.filter (fun y => key y == k) := by
  induction l with
  | nil => rfl
  | cons x xs ih =>
    simp only [sortDesc]
    rw [filter_insertDesc]
    by_cases hxk : key x == k
    · simp [hxk, ih, List.filter]
    · simp [hxk, ih, List.filter]

/-! ## Correctness of the modular inverse and of `generate_keys` key pairs -/

theorem egcdAux_gcd :
    ∀ fuel r0 s0 r1 s1, r1 ≤ fuel →
      (egcdAux fuel r0 s0 r1 s1).1 = Nat.gcd r1 r0 := by
  intro fuel
  induction fuel with
  | zero =>
    intro r0 s0 r1 s1 h
    have : r1 = 0 := Nat.le_zero.mp h
    subst this
    simp [egcdAux]
  | succ fuel ih =>
    intro r0 s0 r1 s1 h
    simp only [egcdAux]
    split
    · rename_i h0; subst h0; simp
    · rename_i h0
      have hlt : r0 % r1 < r1 := Nat.mod_lt r0 (Nat.pos_of_ne_zero h0)
      rw [ih r1 s1 (r0 % r1) _ (by omega)]
      exact (Nat.gcd_rec r1 r0).symm

theorem egcdAux_bezout (a n : Nat) :
    ∀ (fuel : Nat) (r0 : Nat) (s0 : Int) (r1 : Nat) (s1 : Int),
      (r0 : Int) ≡ s0 * a [ZMOD n] → (r1 : Int) ≡ s1 * a [ZMOD n] →
      ((egcdAux fuel r0 s0 r1 s1).1 : Int) ≡
        (egcdAux fuel r0 s0 r1 s1).2 * a [ZMOD n] := by
  intro fuel
  induction fuel with
  | zero => intro r0 s0 r1 s1 h0 h1; simpa [egcdAux] using h0
  | succ fuel ih =>
    intro r0 s0 r1 s1 h0 h1
    simp only [egcdAux]
    split
    · exact h0
    · refine ih r1 s1 (r0 % r1) (s0 - (r0 / r1 : Nat) * s1) h1 ?_
      have hcast : ((r0 % r1 : Nat) : Int) = (r0 : Int) - (r1 : Int) * ((r0 / r1 : Nat) : Int) := by
        have hmd : (r0 % r1) + r1 * (r0 / r1) = r0 := Nat.mod_add_div r0 r1
        set m := r0 % r1 with hm
        set k := r0 / r1 with hk
        have h2 : (m : Int) + (r1 : Int) * (k : Int) = (r0 : Int) := by exact_mod_cast hmd
        linarith
      rw [hcast]
      calc (r0 : Int) - (r1 : Int) * ((r0 / r1 : Nat) : Int)
          ≡ s0 * a - (s1 * a) * ((r0 / r1 : Nat) : Int) [ZMOD n] :=
            Int.ModEq.sub h0 (Int.ModEq.mul_right _ h1)
        _ = (s0 - ((r0 / r1 : Nat) : Int) * s1) * a := by ring

theorem invMod_spec (a n : Nat) (hn : 1 < n) (h : Nat.gcd a n = 1) :
    (a * invMod a n) % n = 1 := by
  have hg : (egcdAux n a 1 n 0).1 = 1 := by
    rw [egcdAux_gcd n a 1 n 0 (le_refl n), Nat.gcd_comm]
    exact h
  have hb : ((egcdAux n a 1 n 0).1 : Int) ≡ (egcdAux n a 1 n 0).2 * a [ZMOD n] := by
    refine egcdAux_bezout a n n a 1 n 0 ?_ ?_
    · simp [Int.ModEq]
    · have : (n : Int) ≡ 0 [ZMOD n] := (Int.modEq_iff_dvd.mpr (by simp))
      simpa using this
  rw [hg] at hb
  set s := (egcdAux n a 1 n 0).2 with hs
  have hinv : invMod a n = (s % (n : Int)).toNat := by
    simp only [invMod, ← hs, hg]
    rfl
  have hnpos : (0 : Int) < n := by exact_mod_cast Nat.lt_of_lt_of_le Nat.zero_lt_one hn.le
  have hmodnn : (0 : Int) ≤ s % (n : Int) := Int.emod_nonneg s (by omega)
  have hback : (((s % (n : Int)).toNat : Nat) : Int) = s % (n : Int) :=
    Int.toNat_of_nonneg hmodnn
  have hcalc : ((a * invMod a n : Nat) : Int) % n = 1 := by
    push_cast [hinv, hback]
    calc ((a : Int) * (s % n)) % n
        = ((a : Int) % n * (s % n % n)) % n := by rw [Int.mul_emod]
      _ = ((a : Int) % n * (s % n)) % n := by rw [Int.emod_emod_of_dvd _ dvd_rfl]
      _ = ((a : Int) * s) % n := by rw [← Int.mul_emod]
      _ = (s * a) % n := by ring_nf
      _ = 1 % n := by
          have := hb.symm
          simpa [Int.ModEq] using this
      _ = 1 := Int.emod_eq_of_lt (by omega) (by exact_mod_cast hn)
  have : ((a * invMod a n) % n : Nat) = ((1 : Nat)) := by
    have hcast : (((a * invMod a n) % n : Nat) : Int) = 1 := by
      push_cast
      exact hcalc
    exact_mod_cast hcast
  exact this

theorem qSearch_mem (p : Nat) :
    ∀ draws q, qSearch p draws = some q → q ≠ p ∧ q ∈ draws := by
  intro draws
  induction draws with
  | nil => intro q h; simp [qSearch] at h
  | cons d rest ih =>
    intro q h
    simp only [qSearch] at h
    split at h
    · have := ih q h
      exact ⟨this.1, List.mem_cons_of_mem d this.2⟩
    · rename_i hne
      cases h
      exact ⟨hne, List.mem_cons_self d rest⟩

theorem eSearch_spec (phi : Nat) :
    ∀ draws e e', eSearch phi e draws = some e' →
      phi % e' ≠ 0 ∧ (e' = e ∨ e' ∈ draws) := by
  intro draws
  induction draws with
  | nil =>
    intro e e' h
    simp only [eSearch] at h
    split at h
    · cases h
    · cases h; rename_i hne; exact ⟨hne, Or.inl rfl⟩
  | cons d rest ih =>
    intro e e' h
    simp only [eSearch] at h
    split at h
    · have := ih d e' h
      exact ⟨this.1, Or.inr (by rcases this.2 with h' | h' <;> simp [h'])⟩
    · cases h; rename_i hne; exact ⟨hne, Or.inl rfl⟩

theorem generate_keys_sound (p : Nat) (qDraws eDraws : List Nat)
    (pub priv : Nat × Nat)
    (hp : p.Prime) (hqd : ∀ x ∈ qDraws, x.Prime) (hed : ∀ x ∈ eDraws, x.Prime)
    (hgen : generate_keys p qDraws eDraws = some (pub, priv)) :
    ∃ q e d, q.Prime ∧ q ≠ p ∧ pub = (e, p * q) ∧ priv = (d, p * q) ∧
      (e * d) % ((p - 1) * (q - 1)) = 1 := by
  unfold generate_keys at hgen
  cases hq : qSearch p qDraws with
  | none => rw [hq] at hgen; cases hgen
  | some q =>
    rw [hq] at hgen
    simp only at hgen
    cases he : eSearch ((p - 1) * (q - 1)) 65537 eDraws with
    | none => rw [he] at hgen; cases hgen
    | some e =>
      rw [he] at hgen
      simp only [Option.some.injEq, Prod.mk.injEq] at hgen
      obtain ⟨hqne, hqmem⟩ := qSearch_mem p qDraws q hq
      have hqprime : q.Prime := hqd q hqmem
      obtain ⟨hend, hor⟩ := eSearch_spec ((p - 1) * (q - 1)) eDraws 65537 e he
      have heprime : e.Prime := by
        rcases hor with h | h
        · subst h; norm_num
        · exact hed e h
      have hphi1 : 1 < (p - 1) * (q - 1) := by
        have hp2 := hp.two_le
        have hq2 := hqprime.two_le
        rcases Nat.lt_or_ge p 3 with h3 | h3
        · have hpeq : p = 2 := by omega
          have hq3 : 3 ≤ q := by
            rcases Nat.lt_or_ge q 3 with h' | h'
            · omega
            · exact h'
          calc 1 < 1 * (q - 1) := by omega
            _ ≤ (p - 1) * (q - 1) := Nat.mul_le_mul_right _ (by omega)
        · calc 1 < 2 * 1 := by omega
            _ ≤ (p - 1) * (q - 1) := Nat.mul_le_mul (by omega) (by omega)
      have hco : Nat.gcd e ((p - 1) * (q - 1)) = 1 :=
        (Nat.Prime.coprime_iff_not_dvd heprime).mpr
          (fun hdvd => hend ((Nat.mod_eq_zero_of_dvd hdvd)))
      refine ⟨q, e, invMod e ((p - 1) * (q - 1)), hqprime, hqne, ?_, ?_, ?_⟩
      · exact hgen.1.symm
      · exact hgen.2.symm
      · exact invMod_spec e ((p - 1) * (q - 1)) hphi1 hco

theorem fermat_step (pp : Nat) (hp : pp.Prime) (t m : Nat) :
    m ^ (t * (pp - 1) + 1) ≡ m [MOD pp] := by
  haveI : Fact pp.Prime := ⟨hp⟩
  rw [← ZMod.natCast_eq_natCast_iff]
  push_cast
  by_cases hx : (m : ZMod pp) = 0
  · rw [hx, zero_pow (by omega)]
  · rw [pow_add, pow_one, mul_comm t (pp - 1), pow_mul,
      ZMod.pow_card_sub_one_eq_one hx, one_pow, one_mul]

theorem rsa_pow_identity (p q e d m : Nat) (hp : p.Prime) (hq : q.Prime)
    (hpq : p ≠ q) (hed : (e * d) % ((p - 1) * (q - 1)) = 1) (hm : m < p * q) :
    m ^ (e * d) % (p * q) = m := by
  have h1 := Nat.div_add_mod (e * d) ((p - 1) * (q - 1))
  rw [hed] at h1
  set t := e * d / ((p - 1) * (q - 1)) with ht
  have hexp_p : e * d = ((q - 1) * t) * (p - 1) + 1 := by rw [← h1]; ring
  have hexp_q : e * d = ((p - 1) * t) * (q - 1) + 1 := by rw [← h1]; ring
  have hmodp : m ^ (e * d) ≡ m [MOD p] := by
    rw [hexp_p]; exact fermat_step p hp _ m
  have hmodq : m ^ (e * d) ≡ m [MOD q] := by
    rw [hexp_q]; exact fermat_step q hq _ m
  have hco : p.Coprime q := (Nat.coprime_primes hp hq).mpr hpq
  have hmul : m ^ (e * d) ≡ m [MOD p * q] :=
    (Nat.modEq_and_modEq_iff_modEq_mul hco).mp ⟨hmodp, hmodq⟩
  calc m ^ (e * d) % (p * q) = m % (p * q) := hmul
    _ = m := Nat.mod_eq_of_lt hm

/-! ## Lemmas about the vector-commitment loop -/

theorem cvcLoop_ok (p : Nat) (coeffs : List Nat) :
    ∀ (ws : List (User × Nat)) (i acc : Nat), ws.length + i ≤ coeffs.length →
      cvcLoop p coeffs ws i acc =
        (.ok ((ws.zip (coeffs.drop i)).foldl
                (fun a wr => (a * wr.1.2 ^ wr.2) % p) acc),
         (ws.zip (coeffs.drop i)).foldl
                (fun a wr => (a * wr.1.2 ^ wr.2) % p) acc) := by
  intro ws
  induction ws with
  | nil => intro i acc _; simp [cvcLoop]
  | cons w rest ih =>
    intro i acc h
    have hi : i < coeffs.length := by
      simp only [List.length_cons] at h; omega
    have hget : coeffs.get? i = some (coeffs.get ⟨i, hi⟩) := List.get?_eq_get hi
    have hdrop : coeffs.drop i = coeffs.get ⟨i, hi⟩ :: coeffs.drop (i + 1) :=
      List.drop_eq_get_cons hi
    obtain ⟨u, c⟩ := w
    rw [show cvcLoop p coeffs ((u, c) :: rest) i acc =
          (match coeffs.get? i with
           | none => (.error .indexError, acc)
           | some r => cvcLoop p coeffs rest (i + 1) ((acc * c ^ r) % p)) from rfl,
      hget]
    rw [hdrop]
    simp only [List.zip_cons_cons, List.foldl_cons]
    exact ih (i + 1) ((acc * c ^ coeffs.get ⟨i, hi⟩) % p)
      (by simp only [List.length_cons] at h; omega)

theorem cvcLoop_err (p : Nat) (coeffs : List Nat) :
    ∀ (ws : List (User × Nat)) (i acc : Nat),
      coeffs.length < ws.length + i → ws ≠ [] →
      (cvcLoop p coeffs ws i acc).1 = .error .indexError := by
  intro ws
  induction ws with
  | nil => intro i acc _ hne; exact absurd rfl hne
  | cons w rest ih =>
    intro i acc h _
    obtain ⟨u, c⟩ := w
    rw [show cvcLoop p coeffs ((u, c) :: rest) i acc =
          (match coeffs.get? i with
           | none => (.error .indexError, acc)
           | some r => cvcLoop p coeffs rest (i + 1) ((acc * c ^ r) % p)) from rfl]
    cases hget : coeffs.get? i with
    | none => rfl
    | some r =>
      have hi : i < coeffs.length := by
        by_contra hcon
        rw [List.get?_eq_none.mpr (by omega)] at hget
        cases hget
      have hrest : rest ≠ [] := by
        intro hnil
        subst hnil
        simp only [List.length_cons, List.length_nil] at h
        omega
      exact ih (i + 1) ((acc * c ^ r) % p)
        (by simp only [List.length_cons] at h; omega) hrest

theorem foldl_mulmod (p : Nat) (term : β → Nat) :
    ∀ (l : List β) (a : Nat),
      l.foldl (fun acc x => (acc * term x) % p) (a % p) =
        (a * (l.map term).prod) % p := by
  intro l
  induction l with
  | nil => intro a; simp
  | cons x xs ih =>
    intro a
    simp only [List.foldl_cons, List.map_cons, List.prod_cons]
    rw [Nat.mod_mul_mod, ih (a * term x), mul_assoc]

theorem encryptWinnersLoop_map (pub : Nat × Nat) :
    ∀ l : List (User × Nat),
      encryptWinnersLoop pub l = l.map (fun wc => (wc.1, encrypt wc.2 pub)) := by
  intro l
  induction l with
  | nil => rfl
  | cons wc rest ih =>
    obtain ⟨u, c⟩ := wc
    simp only [encryptWinnersLoop, List.map_cons, ih]

set_option maxRecDepth 10000
set_option exponentiation.threshold 70000

/-! ## The claims -/

/-- C1: the claim states that the OrdinalAuction baseline and the
committed/encrypted protocol select the same winning identities for every
population.  The code violates it: with bids 50 and 100 in one CBC and M = 1,
the baseline picks B (bid 100) while the committed protocol picks A, because
`2^50 mod (2^31 - 1) = 2^19 > 2^7 = 2^100 mod (2^31 - 1)` — the commitment map
is not monotone over the configured bid range.  The keys below are exactly what
`generate_keys` produces from the prime draws (131, 137) and (139, 149). -/
theorem c1_baseline_protocol_divergence :
    generate_keys 131 [137] [] = some cbcDemoKey ∧
    generate_keys 139 [149] [] = some pbcDemoKey ∧
    run_ordinal demoGroups 1 = ["B"] ∧
    run_committed 1 (vc_keygen 1 100) none pbcDemoKey [cbcDemoKey] demoGroups =
      .ok ["A"] ∧
    (["A"] : List String) ≠ ["B"] :=
  ⟨by decide, by decide, rfl, rfl, by decide⟩

/-- C2: the claim states that for g = 2, modulus 2^31 − 1 and safe bid maximum
1000 the commitment is strictly increasing on the safe range.  The code
violates it: bids 30 and 31 are both admitted by `create_commitment`, yet
`commit(31) = 1 < 2^30 = commit(30)`; the repository function
`verify_commitment_ordering` itself returns `False` at the configured
parameters. -/
theorem c2_commitment_not_monotone :
    (create_commitment (vc_keygen 1 100) none
      { user_id := "u31", bid_value := 31 }).1 = .ok 1 ∧
    (create_commitment (vc_keygen 1 100) none
      { user_id := "u30", bid_value := 30 }).1 = .ok (2 ^ 30) ∧
    31 ≤ max_safe_bid ∧ 30 ≤ max_safe_bid ∧
    ¬ (1 : Nat) > 2 ^ 30 ∧
    verify_commitment_ordering (vc_keygen 1 100) default_modulus max_safe_bid
      = false :=
  ⟨rfl, rfl, by decide, by decide, by decide, by decide⟩

/-- C3: for every key pair produced by `generate_keys` (from prime draws, as
`sympy.randprime` guarantees) and every message m below the modulus,
decryption inverts encryption and encryption inverts decryption. -/
theorem keys_roundtrip (p : Nat) (qDraws eDraws : List Nat) (pub priv : Nat × Nat)
    (hp : p.Prime) (hqd : ∀ x ∈ qDraws, x.Prime) (hedr : ∀ x ∈ eDraws, x.Prime)
    (hgen : generate_keys p qDraws eDraws = some (pub, priv))
    (m : Nat) (hm : m < pub.2) :
    decrypt (encrypt m pub) priv = m ∧ encrypt (decrypt m priv) pub = m := by
  obtain ⟨q, e, d, hq, hqp, hpub, hpriv, h1⟩ :=
    generate_keys_sound p qDraws eDraws pub priv hp hqd hedr hgen
  subst hpub; subst hpriv
  have hm' : m < p * q := hm
  constructor
  · show (m ^ e % (p * q)) ^ d % (p * q) = m
    rw [← Nat.pow_mod, ← pow_mul]
    exact rsa_pow_identity p q e d m hp hq hqp.symm h1 hm'
  · show (m ^ d % (p * q)) ^ e % (p * q) = m
    rw [← Nat.pow_mod, ← pow_mul]
    have h1' : (d * e) % ((p - 1) * (q - 1)) = 1 := by rwa [mul_comm d e]
    exact rsa_pow_identity p q d e m hp hq hqp.symm h1' hm'

/-- C3 witness: the key pair generated from the prime draws 131, 137 round-trips
the message 12345. -/
theorem keys_roundtrip_witness :
    decrypt (encrypt 12345 (65537, 17947)) (12113, 17947) = 12345 ∧
    encrypt (decrypt 12345 (12113, 17947)) (65537, 17947) = 12345 :=
  keys_roundtrip 131 [137] [] (65537, 17947) (12113, 17947)
    (by norm_num)
    (by intro x hx; rw [List.mem_singleton] at hx; subst hx; norm_num)
    (by intro x hx; cases hx)
    (by decide) 12345 (by decide)

/-- C4: `select_top_M` returns the stable descending sort of the decrypted
commitments (ties kept in arrival order, expressed by sortedness, permutation
and the filter characterisation of stability) truncated to `min(M, count)`
entries, hence never more than `min(M, registered users)` when the decrypted
list came from the roster; and `select_final_winners` never returns more than
`M` entries. -/
theorem select_top_M_spec (M : Nat) (s : CBCVerifier) (pb : PBCVerifier)
    (hlen : s.decrypted_commitments.length ≤ s.users.length) :
    (select_top_M M s).1 =
      (sortDesc (fun x : User × Nat => x.2) s.decrypted_commitments).take M ∧
    List.Sorted (fun a b : User × Nat => b.2 ≤ a.2)
      (sortDesc (fun x : User × Nat => x.2) s.decrypted_commitments) ∧
    (sortDesc (fun x : User × Nat => x.2) s.decrypted_commitments).Perm
      s.decrypted_commitments ∧
    (∀ k, (sortDesc (fun x : User × Nat => x.2) s.decrypted_commitments).filter
        (fun y => y.2 == k) =
      s.decrypted_commitments.filter (fun y => y.2 == k)) ∧
    ((select_top_M M s).1).length = min M s.decrypted_commitments.length ∧
    ((select_top_M M s).1).length ≤ min M s.users.length ∧
    ((select_final_winners M pb).1).length ≤ M := by
  have hlen1 : ((select_top_M M s).1).length = min M s.decrypted_commitments.length := by
    simp only [select_top_M, List.length_take]
    rw [(sortDesc_perm (fun x : User × Nat => x.2) s.decrypted_commitments).length_eq]
  refine ⟨rfl, sortDesc_sorted _ _, sortDesc_perm _ _,
    fun k => sortDesc_stable _ k _, hlen1, ?_, ?_⟩
  · rw [hlen1]; omega
  · simp only [select_final_winners, List.length_take]; omega

/-- C4 witness: a one-user verifier state, M = 3. -/
theorem select_top_M_spec_witness :
    (select_top_M 3 demoCBCState).1 =
      (sortDesc (fun x : User × Nat => x.2)
        demoCBCState.decrypted_commitments).take 3 ∧
    ((select_top_M 3 demoCBCState).1).length ≤ min 3 demoCBCState.users.length := by
  have h := select_top_M_spec 3 demoCBCState
    { pubkey := (3, 10), privkey := (3, 10) } (by decide)
  exact ⟨h.1, h.2.2.2.2.2.1⟩

/-- C5 counterexample: the claim asserts the prime search is bounded by a retry
count and can never loop forever.  In fact, started from the prime 131, a
`randprime` stream that keeps returning 131 makes `generate_keys` loop without
end: after any number k of modelled retries it still has not produced a key
(and no `KeyGenerationExhausted`-style failure exists anywhere in its type). -/
theorem generate_keys_unbounded_retry : generate_keys_diverges := by
  intro k
  have hq : qSearch 131 (List.replicate k 131) = none := by
    induction k with
    | zero => rfl
    | succ k ih => simpa [List.replicate, qSearch] using ih
  simp [generate_keys, hq]

/-- C5 amended: the two retry loops of `generate_keys` are unbounded — there is
no retry budget and no exhaustion error; each search terminates exactly when
the random stream supplies a suitable draw (a value different from p for the
second prime, resp. a candidate e not dividing phi), and then returns the first
suitable one. -/
theorem search_termination_iff (p phi e0 : Nat) (qDraws eDraws : List Nat) :
    ((qSearch p qDraws).isSome ↔ ∃ x ∈ qDraws, x ≠ p) ∧
    ((eSearch phi e0 eDraws).isSome ↔
      phi % e0 ≠ 0 ∨ ∃ x ∈ eDraws, phi % x ≠ 0) := by
  constructor
  · induction qDraws with
    | nil => simp [qSearch]
    | cons d rest ih =>
      simp only [qSearch]
      by_cases hd : d = p
      · rw [if_pos hd, ih]
        subst hd
        simp
      · rw [if_neg hd]
        simp [hd]
  · induction eDraws generalizing e0 with
    | nil =>
      by_cases hc : phi % e0 = 0 <;> simp [eSearch, hc]
    | cons d rest ih =>
      simp only [eSearch]
      by_cases hc : phi % e0 = 0
      · rw [if_pos hc, ih d]
        simp [hc]
      · rw [if_neg hc]
        simp [hc]

/-- C5 amended, instantiated: both searches halt once the stream contains a
suitable draw. -/
theorem search_termination_iff_witness :
    (qSearch 131 [131, 137]).isSome ∧ (eSearch 19500 65537 []).isSome := by
  have h := search_termination_iff 131 19500 65537 [131, 137] []
  exact ⟨h.1.mpr ⟨137, by decide, by decide⟩, h.2.mpr (Or.inl (by decide))⟩

/-- C6: with final winners present and at least as many blinding coefficients
as winners, `compute_vector_commitment` stores and returns the left-to-right
running product from 1, which equals
`(c_1^r_1 * ... * c_k^r_k) mod p` with the i-th winner paired with the i-th
coefficient. -/
theorem compute_vector_commitment_spec (p : Nat) (s : PBCVerifier)
    (hw : s.final_winners ≠ [])
    (hlen : s.final_winners.length ≤ s.random_values.length) :
    compute_vector_commitment p s =
      (.ok (((s.final_winners.zip s.random_values).map
              (fun wr => wr.1.2 ^ wr.2)).prod % p),
       { s with vector_commitment := some (((s.final_winners.zip
           s.random_values).map (fun wr => wr.1.2 ^ wr.2)).prod % p) }) := by
  have hr : s.random_values ≠ [] := by
    intro h
    rw [h, List.length_nil, Nat.le_zero, List.length_eq_zero] at hlen
    exact hw hlen
  obtain ⟨w, ws, hwe⟩ := List.exists_cons_of_ne_nil hw
  obtain ⟨r, rs, hre⟩ := List.exists_cons_of_ne_nil hr
  have hloop := cvcLoop_ok p s.random_values s.final_winners 0 1
    (by omega)
  rw [List.drop_zero] at hloop
  have hF : (s.final_winners.zip s.random_values).foldl
      (fun a wr => (a * wr.1.2 ^ wr.2) % p) 1 =
      ((s.final_winners.zip s.random_values).map
        (fun wr => wr.1.2 ^ wr.2)).prod % p := by
    rw [hwe, hre]
    simp only [List.zip_cons_cons, List.foldl_cons, List.map_cons, List.prod_cons]
    rw [one_mul]
    exact foldl_mulmod p _ (ws.zip rs) (w.2 ^ r)
  simp only [compute_vector_commitment, hloop, hF]
  rw [hwe, hre]
  simp

/-- C6 witness: two winners with values 3 and 4, coefficients 2 and 3,
modulus 100. -/
theorem compute_vector_commitment_spec_witness :
    compute_vector_commitment 100 demoPBCFull =
      (.ok (((demoPBCFull.final_winners.zip demoPBCFull.random_values).map
              (fun wr => wr.1.2 ^ wr.2)).prod % 100),
       { demoPBCFull with vector_commitment := some (((demoPBCFull.final_winners.zip
           demoPBCFull.random_values).map (fun wr => wr.1.2 ^ wr.2)).prod % 100) }) :=
  compute_vector_commitment_spec 100 demoPBCFull (by decide) (by decide)

/-- C7: invoked with an empty finalWinners or an empty blindingCoefficients
sequence, `compute_vector_commitment` raises `MissingInputs` and leaves the
whole verifier state — in particular the stored vectorCommitment — unchanged. -/
theorem compute_vector_commitment_missing_inputs (p : Nat) (s : PBCVerifier)
    (h : s.final_winners = [] ∨ s.random_values = []) :
    compute_vector_commitment p s = (.error .missingInputs, s) := by
  simp only [compute_vector_commitment]
  rcases h with h | h <;> rw [h] <;> simp

/-- C7 witness: the freshly constructed verifier state. -/
theorem compute_vector_commitment_missing_inputs_witness :
    compute_vector_commitment 7 demoPBCEmpty = (.error .missingInputs, demoPBCEmpty) :=
  compute_vector_commitment_missing_inputs 7 demoPBCEmpty (Or.inl rfl)

/-- C8: `create_commitment` fails with `BidOutOfRange` and leaves the user
unchanged when the bid exceeds the safe maximum; otherwise it computes
`generator ^ bidValue mod modulus`, stores it and returns it. -/
theorem create_commitment_spec (g : Nat) (mo : Option Nat) (u : User) :
    (u.bid_value > max_safe_bid →
      create_commitment g mo u = (.error .bidOutOfRange, u)) ∧
    (u.bid_value ≤ max_safe_bid →
      create_commitment g mo u =
        (.ok (powMod g u.bid_value (mo.getD default_modulus)),
         { u with commitment := some (powMod g u.bid_value
             (mo.getD default_modulus)) })) := by
  constructor
  · intro h
    simp [create_commitment, h]
  · intro h
    have h' : ¬ u.bid_value > max_safe_bid := by omega
    simp [create_commitment, h']

/-- C8 witness: a bid of 1001 is rejected without touching the user, a bid of
5 is committed. -/
theorem create_commitment_spec_witness :
    create_commitment 2 none { user_id := "a", bid_value := 1001 } =
      (.error .bidOutOfRange, { user_id := "a", bid_value := 1001 }) ∧
    create_commitment 2 none { user_id := "b", bid_value := 5 } =
      (.ok (powMod 2 5 ((none : Option Nat).getD default_modulus)),
       { user_id := "b", bid_value := 5,
         commitment := some (powMod 2 5 ((none : Option Nat).getD default_modulus)),
         encrypted_commitment := none }) :=
  ⟨(create_commitment_spec 2 none _).1 (by decide),
   (create_commitment_spec 2 none _).2 (by decide)⟩

/-- C9: `encrypt_winners_for_pbc` returns the stored winners with each value
re-encrypted under the parent key, in order, and leaves the verifier state —
topWinners included — unchanged. -/
theorem encrypt_winners_for_pbc_spec (pub : Nat × Nat) (s : CBCVerifier) :
    encrypt_winners_for_pbc pub s =
      (s.top_M_winners.map (fun wc => (wc.1, encrypt wc.2 pub)), s) := by
  simp only [encrypt_winners_for_pbc, encryptWinnersLoop_map]

/-- C10: given non-empty finalWinners and blindingCoefficients (so the
`MissingInputs` guard passes), the per-winner coefficient lookup completes
exactly when there are at least as many coefficients as winners; with fewer
coefficients than winners the operation faults with the out-of-range index
error, not with `MissingInputs`. -/
theorem compute_vector_commitment_index_safety (p : Nat) (s : PBCVerifier)
    (hw : s.final_winners ≠ []) (hr : s.random_values ≠ []) :
    ((∃ v, (compute_vector_commitment p s).1 = .ok v) ↔
      s.final_winners.length ≤ s.random_values.length) ∧
    (s.random_values.length < s.final_winners.length →
      (compute_vector_commitment p s).1 = .error .indexError) := by
  obtain ⟨w, ws, hwe⟩ := List.exists_cons_of_ne_nil hw
  obtain ⟨r, rs, hre⟩ := List.exists_cons_of_ne_nil hr
  have hc : (compute_vector_commitment p s).1 =
      (cvcLoop p s.random_values s.final_winners 0 1).1 := by
    simp only [compute_vector_commitment]
    rw [hwe, hre]
    simp
  have herr : s.random_values.length < s.final_winners.length →
      (compute_vector_commitment p s).1 = .error .indexError := by
    intro hlt
    rw [hc]
    rw [cvcLoop_err p s.random_values s.final_winners 0 1 (by omega) hw]
  refine ⟨⟨?_, ?_⟩, herr⟩
  · rintro ⟨v, hv⟩
    by_contra hcon
    rw [herr (by omega)] at hv
    cases hv
  · intro hle
    rw [hc, cvcLoop_ok p s.random_values s.final_winners 0 1 (by omega)]
    exact ⟨_, rfl⟩

/-- C10 witness: two winners, one coefficient — the operation faults with the
index error, not with `MissingInputs`. -/
theorem compute_vector_commitment_index_safety_witness :
    (compute_vector_commitment 7 demoPBCShort).1 = .error .indexError :=
  (compute_vector_commitment_index_safety 7 demoPBCShort
    (by decide) (by decide)).2 (by decide)

end Auction
